import Mathlib

/-!
Verification development for the DM21cm evolution driver and its
interpolation / annulus-caching subsystems.

Shallow embedding conventions:
* numpy / jax float arrays are modelled as `List ℚ` (exact rational
  arithmetic); nested lists model higher-rank arrays;
* jax's clamped out-of-bounds gather indexing is modelled by `clampGet`;
* a float division whose divisor is exactly zero produces a non-finite
  value (NaN / inf) in the source, modelled by an `Option` result that is
  `none` exactly when such a division is executed;
* the Python `while` loop in `get_z_edges` is modelled with explicit fuel.
-/

/-! ### Generic array helpers (numpy / jax primitives) -/

/-- Element retrieval with jax's clamped ("clip" mode) out-of-bounds gather:
an index past the end reads the last element; used for `xp[il+1]` etc. -/
def clampGet {α : Type} (dflt : α) (l : List α) (i : Nat) : α :=
  l.getD (min i (l.length - 1)) dflt

/-- `np.searchsorted(a, v, side='left')` on a sorted ascending array:
the number of elements strictly below `v`. -/
def np_searchsorted_left (a : List ℚ) (v : ℚ) : Nat :=
  a.countP (fun e => decide (e < v))

/-- `np.searchsorted(a, v, side='right')` on a sorted ascending array:
the number of elements `≤ v`. -/
def np_searchsorted_right (a : List ℚ) (v : ℚ) : Nat :=
  a.countP (fun e => decide (e ≤ v))

/-- Elementwise sum of two equal-length arrays (`a + b` on jax arrays). -/
def vecAdd (a b : List ℚ) : List ℚ := List.zipWith (· + ·) a b

/-- Scalar multiple of an array. -/
def vecScale (c : ℚ) (v : List ℚ) : List ℚ := v.map (fun x => c * x)

/-- Dot product of two arrays (`np.dot`). -/
def dotL (a b : List ℚ) : ℚ := (List.zipWith (· * ·) a b).sum

/-! ### evolve.py : `get_z_edges` (lines 415-420)

    def get_z_edges(z_max, z_min, zplusone_step_factor):
        z_s = [z_min]
        while z_s[-1] < z_max:
            z_s.append((z_s[-1] + 1.) * zplusone_step_factor - 1.)
        return np.clip(z_s[::-1], None, z_max)

We build the list in reversed order directly (new values are consed at the
front, so the head is Python's `z_s[-1]` and no final reversal is needed),
and give the `while` loop explicit fuel. -/

/-- The `while` loop of `get_z_edges`, with explicit fuel.  The head of the
list plays the role of `z_s[-1]`; consing builds `z_s[::-1]`. -/
def zLoop (z_max f : ℚ) : Nat → List ℚ → List ℚ
  | 0, zs => zs
  | fuel + 1, zs =>
      if zs.headI < z_max then
        zLoop z_max f fuel (((zs.headI + 1) * f - 1) :: zs)
      else zs

/-- `get_z_edges(z_max, z_min, zplusone_step_factor)`; the final
`np.clip(·, None, z_max)` is the elementwise `min · z_max`. -/
def get_z_edges (z_max z_min f : ℚ) (fuel : Nat) : List ℚ :=
  (zLoop z_max f fuel [z_min]).map (fun z => min z z_max)

/-- `n` iterations of the loop body `z ↦ (z + 1) * f - 1` from `z`. -/
def zIter (f : ℚ) (z : ℚ) : Nat → ℚ
  | 0 => z
  | n + 1 => zIter f ((z + 1) * f - 1) n

/-- An explicit fuel bound sufficient for the `get_z_edges` loop to have
terminated (derived from geometric growth of `1 + z`). -/
def zFuelBound (z_max z_min f : ℚ) : Nat :=
  Nat.ceil (((1 + z_max) / (1 + z_min) - 1) / (f - 1))

/-! ### evolve.py : `split_xray` (lines 423-436)

    ex_lo, ex_hi = 1e2, 1e4 # [eV]
    ix_lo = np.searchsorted(phot_eng, ex_lo)
    ix_hi = np.searchsorted(phot_eng, ex_hi)
    bath_N = phot_N.copy(); xray_N = phot_N.copy()
    bath_N[ix_lo:ix_hi] *= 0
    xray_N[:ix_lo] *= 0
    xray_N[ix_hi:] *= 0
    return bath_N, xray_N
-/

/-- `split_xray(phot_N, phot_eng)`: bins with index in `[ix_lo, ix_hi)` are
zeroed in the bath part and kept in the xray part, all other bins are kept
in the bath part and zeroed in the xray part. -/
def split_xray (phot_N phot_eng : List ℚ) : List ℚ × List ℚ :=
  let ix_lo := np_searchsorted_left phot_eng 100
  let ix_hi := np_searchsorted_left phot_eng 10000
  ((List.range phot_N.length).map
      (fun i => if ix_lo ≤ i ∧ i < ix_hi then 0 else phot_N.getD i 0),
   (List.range phot_N.length).map
      (fun i => if ix_lo ≤ i ∧ i < ix_hi then phot_N.getD i 0 else 0))

/-! ### evolve.py : bath spectrum assembly for the next step (lines 321-328)

    prop_phot_N = np.array(prop_phot_N); emit_phot_N = np.array(emit_phot_N)
    prop_phot_N[149] = 0.
    emit_bath_N, emit_xray_N = split_xray(emit_phot_N, abscs['photE'])
    phot_bath_spec = Spectrum(abscs['photE'], prop_phot_N + emit_bath_N, ...)

(The subsequent `redshift` call rescales the assembled array as a whole and
is external to this repository.) -/

/-- The bin array of the next step's `phot_bath_spec` before the redshift
transform: the 10.2 eV bin (index 149) of the propagating photons is zeroed,
then the emitted bath band is added. -/
def prepare_bath_N (prop_phot_N emit_phot_N phot_eng : List ℚ) : List ℚ :=
  vecAdd (prop_phot_N.set 149 0) (split_xray emit_phot_N phot_eng).1

/-! ### evolve.py : relative xray energy box (lines 363-370)

    xray_tot_eng = np.dot(abscs['photE'], emit_xray_N)
    if xray_tot_eng == 0.:
        xray_rel_eng_box = np.zeros_like(tf_wrapper.xray_eng_box)
    else:
        xray_rel_eng_box = tf_wrapper.xray_eng_box / xray_tot_eng
-/

/-- A 3-dimensional per-cell box. -/
abbrev Box3 := List (List (List ℚ))

/-- `np.zeros_like` on a 3-dimensional box: same shape, every entry `0`. -/
def zeros_like3 (b : Box3) : Box3 :=
  b.map (fun p => p.map (fun r => r.map (fun _ => (0 : ℚ))))

/-- Elementwise division of a box by a scalar, fallible: `none` exactly when
the division would be executed with a zero divisor. -/
def boxDivChecked (b : Box3) (c : ℚ) : Option Box3 :=
  if c = 0 then none
  else some (b.map (fun p => p.map (fun r => r.map (fun x => x / c))))

/-- The guarded computation of `xray_rel_eng_box` in the regular routine. -/
def xray_rel_eng_box_calc (photE emit_xray_N : List ℚ) (xray_eng_box : Box3) :
    Option Box3 :=
  if dotL photE emit_xray_N = 0 then some (zeros_like3 xray_eng_box)
  else boxDivChecked xray_eng_box (dotL photE emit_xray_N)

/-! ### evolve.py : regular-routine xray shell loop (lines 281-294)

    for i_z_shell in range(i_xray_loop_start, i_z):
        xray_brightness_box, xray_spec, is_box_average = xray_cacher.get_annulus_data(...)
        if is_box_average or 'uniform_xray' in debug_flags:
            phot_bath_spec.N += xray_spec.N
            i_xray_loop_start = max(i_z_shell+1, i_xray_loop_start)
        else:
            tf_wrapper.inject_phot(xray_spec, inject_type='xray', weight_box=xray_brightness_box)

The cache's report `is_box_average` for shell `i_z_shell` queried at step
`i_z` is abstracted as a boolean function `avg i_z i_z_shell`, and the
shell's cached spectrum at that step as `spec i_z i_z_shell` (attenuation
and redshifting between steps make it step-dependent).  The `folded` field
records, in order, the (step, shell) pairs whose spectrum was added into
`phot_bath_spec`; the non-folded branch only feeds the transfer-function
wrapper and does not touch this state. -/

structure XrayLoopState where
  i_xray_loop_start : Nat
  folded : List (Nat × Nat)
  phot_bath_N : List ℚ

/-- One inner-loop body execution for shell `i_z_shell` at step `i_z`. -/
def foldShellStep (avg : Nat → Nat → Bool) (spec : Nat → Nat → List ℚ)
    (i_z : Nat) (s : XrayLoopState) (i_z_shell : Nat) : XrayLoopState :=
  if avg i_z i_z_shell then
    { i_xray_loop_start := max (i_z_shell + 1) s.i_xray_loop_start,
      folded := s.folded ++ [(i_z, i_z_shell)],
      phot_bath_N := vecAdd s.phot_bath_N (spec i_z i_z_shell) }
  else s

/-- The shell loop of one step `i_z`: Python's `range(i_xray_loop_start, i_z)`
is fixed at loop entry, so it is the list `[s.ptr, …, i_z - 1]` built from the
pointer value at entry. -/
def xrayShellLoop (avg : Nat → Nat → Bool) (spec : Nat → Nat → List ℚ)
    (i_z : Nat) (s : XrayLoopState) : XrayLoopState :=
  (List.range' s.i_xray_loop_start (i_z - s.i_xray_loop_start)).foldl
    (foldShellStep avg spec i_z) s

/-- The whole run: steps `i_z = 0, …, n-1`, starting with pointer `0`
(`i_xray_loop_start = 0` before the main loop) and initial bath `bath0`. -/
def xrayRun (avg : Nat → Nat → Bool) (spec : Nat → Nat → List ℚ)
    (bath0 : List ℚ) (n : Nat) : XrayLoopState :=
  (List.range n).foldl (fun s i_z => xrayShellLoop avg spec i_z s)
    ⟨0, [], bath0⟩

/-! ### interpolators_jax.py : `interp1d` / `interp2d` (lines 13-53)

    il = jnp.searchsorted(xp, x, side='right') - 1
    wl = (xp[il+1] - x) / (xp[il+1] - xp[il])
    return fp[il] * wl + fp[il+1] * (1 - wl)

Out-of-range gather indices are clamped by jax (`clampGet`); the subtraction
`- 1` on the Python side can reach `-1` (clamped to `0`), which the `Nat`
truncated subtraction reproduces.  A zero denominator makes the float
division non-finite; the result is then `none`. -/

/-- `interp1d(fp, xp, x)` with scalar function values. -/
def interp1d (fp xp : List ℚ) (x : ℚ) : Option ℚ :=
  let il := np_searchsorted_right xp x - 1
  let d := clampGet 0 xp (il + 1) - clampGet 0 xp il
  if d = 0 then none
  else
    let wl := (clampGet 0 xp (il + 1) - x) / d
    some (clampGet 0 fp il * wl + clampGet 0 fp (il + 1) * (1 - wl))

/-- `interp2d(fp, x0p, x1p, (x0, x1))` with scalar function values: bilinear
combination of the four bracketing corners. -/
def interp2d (fp : List (List ℚ)) (x0p x1p : List ℚ) (x01 : ℚ × ℚ) :
    Option ℚ :=
  let i0l := np_searchsorted_right x0p x01.1 - 1
  let d0 := clampGet 0 x0p (i0l + 1) - clampGet 0 x0p i0l
  let i1l := np_searchsorted_right x1p x01.2 - 1
  let d1 := clampGet 0 x1p (i1l + 1) - clampGet 0 x1p i1l
  if d0 = 0 ∨ d1 = 0 then none
  else
    let wl0 := (clampGet 0 x0p (i0l + 1) - x01.1) / d0
    let wr0 := 1 - wl0
    let wl1 := (clampGet 0 x1p (i1l + 1) - x01.2) / d1
    let wr1 := 1 - wl1
    some (clampGet 0 (clampGet [] fp i0l) i1l * wl0 * wl1 +
          clampGet 0 (clampGet [] fp (i0l + 1)) i1l * wr0 * wl1 +
          clampGet 0 (clampGet [] fp i0l) (i1l + 1) * wl0 * wr1 +
          clampGet 0 (clampGet [] fp (i0l + 1)) (i1l + 1) * wr0 * wr1)

/-- `interp2d` applied to a table whose entries are vectors over the trailing
`out` axis (the shape used inside `BatchInterpolator.__call__`, where
`fp = data_at_rs` has axes `(nBs, x, out)`); the same bilinear formula acting
on the `out`-vectors. -/
def interp2dVec (fp : List (List (List ℚ))) (x0p x1p : List ℚ)
    (x01 : ℚ × ℚ) : Option (List ℚ) :=
  let i0l := np_searchsorted_right x0p x01.1 - 1
  let d0 := clampGet 0 x0p (i0l + 1) - clampGet 0 x0p i0l
  let i1l := np_searchsorted_right x1p x01.2 - 1
  let d1 := clampGet 0 x1p (i1l + 1) - clampGet 0 x1p i1l
  if d0 = 0 ∨ d1 = 0 then none
  else
    let wl0 := (clampGet 0 x0p (i0l + 1) - x01.1) / d0
    let wr0 := 1 - wl0
    let wl1 := (clampGet 0 x1p (i1l + 1) - x01.2) / d1
    let wr1 := 1 - wl1
    some (vecAdd
      (vecAdd (vecScale (wl0 * wl1) (clampGet [] (clampGet [] fp i0l) i1l))
              (vecScale (wr0 * wl1) (clampGet [] (clampGet [] fp (i0l + 1)) i1l)))
      (vecAdd (vecScale (wl0 * wr1) (clampGet [] (clampGet [] fp i0l) (i1l + 1)))
              (vecScale (wr0 * wr1) (clampGet [] (clampGet [] fp (i0l + 1)) (i1l + 1)))))

/-! ### interpolators_jax.py : out-of-bounds policy (lines 58-60, 121-132)

    def v_is_within(v, absc):
        return jnp.all(v >= jnp.min(absc)) and jnp.all(v <= jnp.max(absc))

    if out_of_bounds_action == 'clip':
        factor = 1.00001
        rs    = jnp.clip(rs,    jnp.min(self.abscs['rs'])*factor,  jnp.max(self.abscs['rs'])/factor)
        x_s   = jnp.clip(x_s,   jnp.min(self.abscs['x'])*factor,   jnp.max(self.abscs['x'])/factor)
        nBs_s = jnp.clip(nBs_s, jnp.min(self.abscs['nBs'])*factor, jnp.max(self.abscs['nBs'])/factor)
    else:
        if not v_is_within(rs, self.abscs['rs']):   raise ValueError('rs out of bounds.')
        if not v_is_within(x_s, self.abscs['x']):   raise ValueError('x_s out of bounds.')
        if not v_is_within(nBs_s, self.abscs['nBs']): raise ValueError('nBs_s out of bounds.')
-/

/-- `jnp.min` of a (nonempty) array. -/
def jmin : List ℚ → ℚ
  | [] => 0
  | a :: t => t.foldl min a

/-- `jnp.max` of a (nonempty) array. -/
def jmax : List ℚ → ℚ
  | [] => 0
  | a :: t => t.foldl max a

/-- `v_is_within(v, absc)`: every component of `v` lies in
`[jnp.min absc, jnp.max absc]`. -/
def v_is_within (v absc : List ℚ) : Bool :=
  v.all (fun q => decide (jmin absc ≤ q)) && v.all (fun q => decide (q ≤ jmax absc))

/-- `jnp.clip(v, lo, hi)` componentwise building block. -/
def clipQ (v lo hi : ℚ) : ℚ := min (max v lo) hi

/-- The relative nudge factor `1.00001` of the clip policy. -/
def oobFactor : ℚ := 100001 / 100000

/-- One axis of the clip branch:
`jnp.clip(v, jnp.min(absc)*factor, jnp.max(absc)/factor)`. -/
def clipAxis (absc v : List ℚ) : List ℚ :=
  v.map (fun q => clipQ q (jmin absc * oobFactor) (jmax absc / oobFactor))

inductive OOBAction
  | error
  | clip

/-- The abscissas of the three interpolated query axes of a loaded table. -/
structure InterpAbscs where
  rs : List ℚ
  x : List ℚ
  nBs : List ℚ

/-- The out-of-bounds preamble of `BatchInterpolator.__call__`: under `clip`
it returns the three nudged query arrays, under `error` it raises on the
first axis whose check fails. -/
def oob_preamble (abscs : InterpAbscs) (action : OOBAction)
    (rs_q x_s nBs_s : List ℚ) : Except String (List ℚ × List ℚ × List ℚ) :=
  match action with
  | .clip =>
      .ok (clipAxis abscs.rs rs_q, clipAxis abscs.x x_s, clipAxis abscs.nBs nBs_s)
  | .error =>
      if ¬ v_is_within rs_q abscs.rs then .error "rs out of bounds."
      else if ¬ v_is_within x_s abscs.x then .error "x_s out of bounds."
      else if ¬ v_is_within nBs_s abscs.nBs then .error "nBs_s out of bounds."
      else .ok (rs_q, x_s, nBs_s)

/-- Whether an `Except` result is an error (a raised `ValueError`). -/
def isErr {ε α : Type} : Except ε α → Bool
  | .error _ => true
  | .ok _ => false

/-- Every component strictly inside the open abscissa range. -/
def strictlyWithin (v absc : List ℚ) : Bool :=
  v.all (fun q => decide (jmin absc < q) && decide (q < jmax absc))

/-! ### interpolators_jax.py : fixed input-spectrum cache (lines 91-95, 134-138)

    def set_fixed_in_spec(self, in_spec):
        self.fixed_in_spec = in_spec
        self.fixed_in_spec_data = jnp.einsum('e,renxo->rnxo', in_spec, self.data)

    # in __call__:
    if jnp.all(in_spec == self.fixed_in_spec):
        in_spec_data = self.fixed_in_spec_data
    else:
        in_spec_data = jnp.einsum('e,renxo->rnxo', in_spec, self.data)
-/

/-- A rank-3 tensor with axes `(nBs, x, out)`. -/
abbrev T3 := List (List (List ℚ))

/-- Scalar multiple of a rank-3 tensor. -/
def scaleT3 (c : ℚ) (t : T3) : T3 :=
  t.map (fun m => m.map (fun v => v.map (fun q => c * q)))

/-- Elementwise sum of two rank-3 tensors. -/
def addT3 (a b : T3) : T3 :=
  List.zipWith (List.zipWith (List.zipWith (· + ·))) a b

/-- Sum of a list of rank-3 tensors. -/
def sumT3 : List T3 → T3
  | [] => []
  | h :: t => t.foldl addT3 h

/-- `jnp.einsum('e,renxo->rnxo', in_spec, data)`: contract the input-energy
axis of the table against the input spectrum. -/
def einsum_e (in_spec : List ℚ) (data : List (List T3)) : List T3 :=
  data.map (fun te => sumT3 (List.zipWith scaleT3 in_spec te))

/-- The `in_spec_data` selection of `__call__`: the cached contraction is used
exactly when `in_spec` compares elementwise equal to the stored
`fixed_in_spec` (`jnp.all(in_spec == self.fixed_in_spec)`; with no stored
spectrum the comparison is false and the contraction is recomputed). -/
def select_in_spec_data (in_spec : List ℚ) (fixed_in_spec : Option (List ℚ))
    (fixed_in_spec_data : List T3) (data : List (List T3)) : List T3 :=
  match fixed_in_spec with
  | some s => if in_spec = s then fixed_in_spec_data else einsum_e in_spec data
  | none => einsum_e in_spec data

/-! ### interpolators_jax.py : batched sum reduction (lines 143-176)

    if not sum_result:
        nBs_x_in = jnp.stack([nBs_s, x_s], axis=-1)
        return interp2d(data_at_rs, nBs_absc, x_absc, nBs_x_in)
    else:
        split_n = int(jnp.ceil( len(x_s)/sum_batch_size ))
        if sum_weight is not None:
            sum_weight_batches = jnp.array_split(sum_weight, split_n)
        result = jnp.zeros( (len(self.abscs['out']),) )
        nBs_x_in_batches = jnp.array_split(nBs_x_in, split_n)
        for i_batch, nBs_x_in_batch in enumerate(nBs_x_in_batches):
            interp_result = interp2d(data_at_rs, nBs_absc, x_absc, nBs_x_in_batch)
            if sum_weight is None: result += jnp.sum(interp_result, axis=0)
            else:                  result += jnp.dot(sum_weight_batches[i_batch], interp_result)
        return result
-/

/-- `int(jnp.ceil(a / b))` for natural `a`, `b`. -/
def ceilDivNat (a b : Nat) : Nat := (a + b - 1) / b

/-- The chunk sizes used by `np.array_split(l, n)` on a length-`len` array:
`len % n` chunks of size `len / n + 1` followed by chunks of size `len / n`. -/
def splitSizes (len n : Nat) : List Nat :=
  (List.range n).map (fun i => len / n + if i < len % n then 1 else 0)

/-- Cut an array into consecutive chunks of the given sizes. -/
def takeChunks {α : Type} : List Nat → List α → List (List α)
  | [], _ => []
  | s :: ss, l => l.take s :: takeChunks ss (l.drop s)

/-- `jnp.array_split(l, n)`. -/
def np_array_split {α : Type} (l : List α) (n : Nat) : List (List α) :=
  takeChunks (splitSizes l.length n) l

/-- Addition of two possibly-non-finite `out`-vectors (NaN propagates). -/
def ovAdd (a b : Option (List ℚ)) : Option (List ℚ) :=
  Option.map₂ vecAdd a b

/-- `jnp.zeros((nout,))` as a (finite) row. -/
def rowZeros (nout : Nat) : Option (List ℚ) := some (List.replicate nout 0)

/-- `jnp.sum(rows, axis=0)` over a batch of interpolated rows. -/
def jnpSumRows (rows : List (Option (List ℚ))) (nout : Nat) :
    Option (List ℚ) :=
  rows.foldl ovAdd (rowZeros nout)

/-- `jnp.dot(w, rows)` : the `w`-weighted sum of the rows. -/
def jnpDotRows (w : List ℚ) (rows : List (Option (List ℚ))) (nout : Nat) :
    Option (List ℚ) :=
  jnpSumRows (List.zipWith (fun c r => Option.map (vecScale c) r) w rows) nout

/-- The batch of per-query interpolated rows: what `__call__` returns with
`sum_result=False` (the vmapped `interp2d` over the query batch). -/
def interpRows (fp : List (List (List ℚ))) (x0p x1p : List ℚ)
    (qs : List (ℚ × ℚ)) : List (Option (List ℚ)) :=
  qs.map (interp2dVec fp x0p x1p)

/-- The `sum_result=True` branch of `__call__`: the queries (and the weights,
when given) are cut into `split_n` chunks, each chunk is interpolated and
summed (or dotted against its weight chunk), and the chunk results are
accumulated into a zero-initialised row. -/
def call_sum_result (fp : List (List (List ℚ))) (x0p x1p : List ℚ)
    (qs : List (ℚ × ℚ)) (sum_weight : Option (List ℚ))
    (sum_batch_size nout : Nat) : Option (List ℚ) :=
  let split_n := ceilDivNat qs.length sum_batch_size
  match sum_weight with
  | none =>
      (np_array_split qs split_n).foldl
        (fun acc ch => ovAdd acc (jnpSumRows (interpRows fp x0p x1p ch) nout))
        (rowZeros nout)
  | some w =>
      ((np_array_split w split_n).zip (np_array_split qs split_n)).foldl
        (fun acc p => ovAdd acc (jnpDotRows p.1 (interpRows fp x0p x1p p.2) nout))
        (rowZeros nout)

/-! ## Theorems -/

/-! ### get_z_edges : helper lemmas -/

theorem zLoop_ne_nil (z_max f : ℚ) :
    ∀ (fuel : Nat) (zs : List ℚ), zs ≠ [] → zLoop z_max f fuel zs ≠ [] := by
  intro fuel
  induction fuel with
  | zero => intro zs h; simpa [zLoop] using h
  | succ n ih =>
      intro zs h
      by_cases hc : zs.headI < z_max
      · simpa [zLoop, hc] using ih _ (by simp)
      · simpa [zLoop, hc] using h

theorem zLoop_getLast? (z_max f : ℚ) :
    ∀ (fuel : Nat) (a : ℚ) (t : List ℚ),
      (zLoop z_max f fuel (a :: t)).getLast? = (a :: t).getLast? := by
  intro fuel
  induction fuel with
  | zero => intro a t; rfl
  | succ n ih =>
      intro a t
      by_cases hc : (a :: t).headI < z_max
      · rw [zLoop, if_pos hc, ih, List.getLast?_cons_cons]
      · rw [zLoop, if_neg hc]

theorem zLoop_tail_lt (z_max f : ℚ) :
    ∀ (fuel : Nat) (zs : List ℚ), (∀ a ∈ zs.tail, a < z_max) →
      ∀ a ∈ (zLoop z_max f fuel zs).tail, a < z_max := by
  intro fuel
  induction fuel with
  | zero => intro zs h; simpa [zLoop] using h
  | succ n ih =>
      intro zs h
      by_cases hc : zs.headI < z_max
      · rw [zLoop, if_pos hc]
        refine ih _ ?_
        intro a ha
        simp only [List.tail_cons] at ha
        rcases zs with _ | ⟨b, t⟩
        · simp at ha
        · rcases List.mem_cons.mp ha with h1 | h2
          · subst h1; simpa using hc
          · exact h a h2
      · rw [zLoop, if_neg hc]; exact h

theorem zLoop_chain' (z_max f : ℚ) :
    ∀ (fuel : Nat) (zs : List ℚ),
      List.Chain' (fun a b => a = (b + 1) * f - 1) zs →
      List.Chain' (fun a b => a = (b + 1) * f - 1) (zLoop z_max f fuel zs) := by
  intro fuel
  induction fuel with
  | zero => intro zs h; simpa [zLoop] using h
  | succ n ih =>
      intro zs h
      by_cases hc : zs.headI < z_max
      · rw [zLoop, if_pos hc]
        refine ih _ ?_
        rcases zs with _ | ⟨b, t⟩
        · simp
        · exact List.Chain'.cons (by simp [List.headI]) h
      · rw [zLoop, if_neg hc]; exact h

/-- C2: for `z_min < z_max` and step factor `f > 1`, once the `get_z_edges`
while-loop has terminated (the head of the raw list has reached `z_max`),
the returned edge sequence has first element `z_max` (after clipping), last
element `z_min`, and every consecutive interior pair `(z_i, z_{i+1})` of the
part after the clipped head satisfies `1 + z_i = f * (1 + z_{i+1})`. -/
theorem get_z_edges_spec (z_max z_min f : ℚ) (fuel : Nat)
    (hlt : z_min < z_max) (hf : 1 < f)
    (hterm : z_max ≤ (zLoop z_max f fuel [z_min]).headI) :
    (get_z_edges z_max z_min f fuel).headI = z_max ∧
    (get_z_edges z_max z_min f fuel).getLast? = some z_min ∧
    List.Chain' (fun a b => a + 1 = f * (b + 1))
      (get_z_edges z_max z_min f fuel).tail := by
  have hne : zLoop z_max f fuel [z_min] ≠ [] :=
    zLoop_ne_nil z_max f fuel [z_min] (by simp)
  obtain ⟨h, t, hht⟩ := List.exists_cons_of_ne_nil hne
  have htail : ∀ a ∈ t, a < z_max := by
    intro a ha
    have := zLoop_tail_lt z_max f fuel [z_min] (by simp)
    rw [hht] at this
    exact this a ha
  have hmapt : t.map (fun z => min z z_max) = t := by
    have : ∀ a ∈ t, min a z_max = a := fun a ha => min_eq_left (le_of_lt (htail a ha))
    calc t.map (fun z => min z z_max) = t.map id := List.map_congr_left this
    _ = t := List.map_id t
  have hhead : (zLoop z_max f fuel [z_min]).headI = h := by rw [hht]; rfl
  have hzh : z_max ≤ h := by rw [hhead] at hterm; exact hterm
  refine ⟨?_, ?_, ?_⟩
  · rw [get_z_edges, hht]
    simpa [List.headI] using min_eq_right hzh
  · rw [get_z_edges]
    have hlast : (zLoop z_max f fuel [z_min]).getLast? = some z_min := by
      rw [zLoop_getLast? z_max f fuel z_min []]; rfl
    rw [List.getLast?_map, hlast]
    simp [min_eq_left (le_of_lt hlt)]
  · rw [get_z_edges, hht]
    have hch : List.Chain' (fun a b => a = (b + 1) * f - 1) (h :: t) := by
      rw [← hht]
      exact zLoop_chain' z_max f fuel [z_min] (by simp)
    have hcht : List.Chain' (fun a b => a = (b + 1) * f - 1) t := hch.tail
    have : ((h :: t).map (fun z => min z z_max)).tail = t := by
      simp only [List.map_cons, List.tail_cons]
      exact hmapt
    rw [this]
    exact hcht.imp (fun a b hab => by rw [hab]; ring)

theorem get_z_edges_spec_witness :
    (0 : ℚ) < 1 ∧ (1 : ℚ) < 2 ∧ (1 : ℚ) ≤ (zLoop 1 2 1 [0]).headI ∧
    (get_z_edges 1 0 2 1).headI = 1 :=
  ⟨by norm_num, by norm_num, by norm_num [zLoop, List.headI],
   (get_z_edges_spec 1 0 2 1 (by norm_num) (by norm_num)
      (by norm_num [zLoop, List.headI])).1⟩

/-! ### get_z_edges : termination of the while loop -/

theorem zIter_closed (f : ℚ) : ∀ (n : Nat) (z : ℚ), zIter f z n = (z + 1) * f ^ n - 1 := by
  intro n
  induction n with
  | zero => intro z; simp [zIter]
  | succ m ih =>
      intro z
      rw [zIter, ih]
      ring

theorem zLoop_head_ge (z_max f : ℚ) :
    ∀ (n : Nat) (zs : List ℚ), z_max ≤ zIter f zs.headI n →
      z_max ≤ (zLoop z_max f n zs).headI := by
  intro n
  induction n with
  | zero => intro zs h; simpa [zLoop, zIter] using h
  | succ m ih =>
      intro zs h
      by_cases hc : zs.headI < z_max
      · rw [zLoop, if_pos hc]
        exact ih _ (by simpa [zIter] using h)
      · rw [zLoop, if_neg hc]
        exact le_of_not_lt hc

theorem zLoop_stable (z_max f : ℚ) :
    ∀ (n k : Nat) (zs : List ℚ), ¬ (zLoop z_max f n zs).headI < z_max →
      zLoop z_max f (n + k) zs = zLoop z_max f n zs := by
  intro n
  induction n with
  | zero =>
      intro k zs h
      have h0 : ¬ zs.headI < z_max := by simpa [zLoop] using h
      rcases k with _ | k
      · rfl
      · rw [Nat.zero_add]
        rw [show zLoop z_max f 0 zs = zs from rfl]
        rw [zLoop, if_neg h0]
  | succ m ih =>
      intro k zs h
      have hexp : m + 1 + k = (m + k) + 1 := by omega
      by_cases hc : zs.headI < z_max
      · rw [zLoop, if_pos hc] at h
        rw [hexp, zLoop, if_pos hc, zLoop, if_pos hc]
        exact ih k _ h
      · rw [hexp, zLoop, if_neg hc, zLoop, if_neg hc]

theorem zFuelBound_spec (z_max z_min f : ℚ)
    (h0 : 0 < 1 + z_min) (hlt : z_min < z_max) (hf : 1 < f) :
    z_max ≤ zIter f z_min (zFuelBound z_max z_min f) := by
  set n := zFuelBound z_max z_min f with hn
  rw [zIter_closed]
  have ha : (0 : ℚ) < f - 1 := by linarith
  have hc : ((1 + z_max) / (1 + z_min) - 1) / (f - 1) ≤ (n : ℚ) := by
    rw [hn, zFuelBound]
    exact Nat.le_ceil _
  have hmul : (1 + z_max) / (1 + z_min) - 1 ≤ (n : ℚ) * (f - 1) := by
    rw [div_le_iff ha] at hc
    linarith
  have hpow : 1 + (n : ℚ) * (f - 1) ≤ f ^ n := by
    have := one_add_mul_le_pow (a := f - 1) (by linarith) n
    simpa using this
  have hfc : (1 + z_max) / (1 + z_min) ≤ f ^ n := by linarith
  have hmin : (0 : ℚ) ≤ 1 + z_min := le_of_lt h0
  have := mul_le_mul_of_nonneg_left hfc hmin
  rw [mul_div_cancel₀ _ (ne_of_gt h0)] at this
  linarith

/-- C10: for `1 + z_min > 0`, `z_min < z_max` and step factor `f > 1`, the
`get_z_edges` while-loop terminates: with any fuel at least the explicit
bound `zFuelBound`, the head of the produced list has reached `z_max` (the
loop guard is false) and the result no longer depends on the fuel, so
`get_z_edges` is a total function of its three arguments. -/
theorem get_z_edges_terminates (z_max z_min f : ℚ) (fuel : Nat)
    (h0 : 0 < 1 + z_min) (hlt : z_min < z_max) (hf : 1 < f)
    (hfuel : zFuelBound z_max z_min f ≤ fuel) :
    z_max ≤ (zLoop z_max f fuel [z_min]).headI ∧
    zLoop z_max f fuel [z_min] = zLoop z_max f (zFuelBound z_max z_min f) [z_min] := by
  have hb : z_max ≤ (zLoop z_max f (zFuelBound z_max z_min f) [z_min]).headI := by
    apply zLoop_head_ge
    simpa [List.headI] using zFuelBound_spec z_max z_min f h0 hlt hf
  obtain ⟨k, hk⟩ := Nat.exists_eq_add_of_le hfuel
  have hst : zLoop z_max f fuel [z_min] = zLoop z_max f (zFuelBound z_max z_min f) [z_min] := by
    rw [hk]
    exact zLoop_stable z_max f _ k [z_min] (not_lt_of_le hb)
  exact ⟨by rw [hst]; exact hb, hst⟩

theorem get_z_edges_terminates_witness :
    (0 : ℚ) < 1 + 0 ∧ (0 : ℚ) < 1 ∧ (1 : ℚ) < 2 ∧ zFuelBound 1 0 2 ≤ 1 ∧
    (1 : ℚ) ≤ (zLoop 1 2 1 [0]).headI :=
  ⟨by norm_num, by norm_num, by norm_num,
   by norm_num [zFuelBound],
   (get_z_edges_terminates 1 0 2 1 (by norm_num) (by norm_num) (by norm_num)
      (by norm_num [zFuelBound])).1⟩

/-! ### Sorted arrays and `searchsorted` -/

theorem getD_lt_iff_lt_countP (v : ℚ) :
    ∀ (l : List ℚ), l.Pairwise (· ≤ ·) → ∀ i, i < l.length →
      (l.getD i 0 < v ↔ i < l.countP (fun e => decide (e < v))) := by
  intro l
  induction l with
  | nil => intro _ i hi; simp at hi
  | cons a t ih =>
      intro hp i hi
      have hat := (List.pairwise_cons.mp hp).1
      have hpt := (List.pairwise_cons.mp hp).2
      by_cases hav : a < v
      · rw [List.countP_cons_of_pos _ _ (by simpa using hav)]
        rcases i with _ | j
        · simpa using hav
        · have hj : j < t.length := by simpa using hi
          have := ih hpt j hj
          simpa [Nat.succ_lt_succ_iff] using this
      · have hz : t.countP (fun e => decide (e < v)) = 0 := by
          rw [List.countP_eq_zero]
          intro b hb
          simp only [decide_eq_true_eq]
          exact fun hbv => hav (lt_of_le_of_lt (hat b hb) hbv)
        rw [List.countP_cons_of_neg _ _ (by simpa using hav), hz]
        simp only [Nat.not_lt_zero, iff_false, not_lt]
        rcases i with _ | j
        · simpa using le_of_not_lt hav
        · have hj : j < t.length := by simpa using hi
          have hmem : t.getD j 0 ∈ t := by
            rw [List.getD_eq_getElem _ _ hj]
            exact List.getElem_mem hj
          simpa using le_trans (le_of_not_lt hav) (hat _ hmem)

theorem getD_le_iff_lt_countP (v : ℚ) :
    ∀ (l : List ℚ), l.Pairwise (· ≤ ·) → ∀ i, i < l.length →
      (l.getD i 0 ≤ v ↔ i < l.countP (fun e => decide (e ≤ v))) := by
  intro l
  induction l with
  | nil => intro _ i hi; simp at hi
  | cons a t ih =>
      intro hp i hi
      have hat := (List.pairwise_cons.mp hp).1
      have hpt := (List.pairwise_cons.mp hp).2
      by_cases hav : a ≤ v
      · rw [List.countP_cons_of_pos _ _ (by simpa using hav)]
        rcases i with _ | j
        · simpa using hav
        · have hj : j < t.length := by simpa using hi
          have := ih hpt j hj
          simpa [Nat.succ_lt_succ_iff] using this
      · have hz : t.countP (fun e => decide (e ≤ v)) = 0 := by
          rw [List.countP_eq_zero]
          intro b hb
          simp only [decide_eq_true_eq]
          exact fun hbv => hav (le_trans (hat b hb) hbv)
        rw [List.countP_cons_of_neg _ _ (by simpa using hav), hz]
        simp only [Nat.not_lt_zero, iff_false, not_le]
        rcases i with _ | j
        · simpa using lt_of_not_le hav
        · have hj : j < t.length := by simpa using hi
          have hmem : t.getD j 0 ∈ t := by
            rw [List.getD_eq_getElem _ _ hj]
            exact List.getElem_mem hj
          simpa using lt_of_lt_of_le (lt_of_not_le hav) (hat _ hmem)

/-- On a strictly sorted abscissa, `searchsorted(..., side='right')` at the
`i`-th grid point is `i + 1`. -/
theorem np_searchsorted_right_at_grid (xp : List ℚ)
    (hp : xp.Pairwise (· < ·)) (i : Nat) (hi : i < xp.length) :
    np_searchsorted_right xp (xp.getD i 0) = i + 1 := by
  have hple : xp.Pairwise (· ≤ ·) := hp.imp le_of_lt
  have hlow : i < np_searchsorted_right xp (xp.getD i 0) := by
    rw [np_searchsorted_right]
    exact (getD_le_iff_lt_countP _ xp hple i hi).mp le_rfl
  have hhigh : np_searchsorted_right xp (xp.getD i 0) ≤ i + 1 := by
    by_contra hcon
    push_neg at hcon
    have hcle : np_searchsorted_right xp (xp.getD i 0) ≤ xp.length := by
      rw [np_searchsorted_right]; exact List.countP_le_length _
    have hj : i + 1 < xp.length := lt_of_lt_of_le hcon hcle
    have hle : xp.getD (i + 1) 0 ≤ xp.getD i 0 := by
      rw [np_searchsorted_right] at hcon
      exact (getD_le_iff_lt_countP _ xp hple (i + 1) hj).mpr hcon
    have hstrict : xp.getD i 0 < xp.getD (i + 1) 0 := by
      rw [List.getD_eq_getElem _ _ hi, List.getD_eq_getElem _ _ hj]
      exact List.pairwise_iff_get.mp hp ⟨i, hi⟩ ⟨i + 1, hj⟩ (by simp)
    linarith
  omega

/-- Reading off a `(List.range n).map f` array. -/
theorem rangeMap_getD (f : Nat → ℚ) (n i : Nat) (hi : i < n) :
    ((List.range n).map f).getD i 0 = f i := by
  rw [List.getD_eq_getElem _ _ (by simpa using hi)]
  simp

/-! ### C3 : split_xray -/

/-- C3, counterexample to the claim as stated: with a single bin of energy
exactly `10000` eV (= 10 keV, inside the closed band `[100 eV, 10 keV]`) and
one photon in it, `split_xray` keeps the photon in the bath part, so the
bath part is not zero at a bin whose energy lies inside the closed band.
(`np.searchsorted` places the exact upper band edge outside `[ix_lo, ix_hi)`;
the implemented xray band is the half-open `[100 eV, 10 keV)`.) -/
theorem split_xray_counterexample :
    ((100 : ℚ) ≤ 10000 ∧ (10000 : ℚ) ≤ 10000) ∧
    (split_xray [1] [10000]).1.getD 0 0 = 1 ∧
    ¬ (split_xray [1] [10000]).1.getD 0 0 = 0 := by
  refine ⟨⟨by norm_num, by norm_num⟩, ?_, ?_⟩ <;>
    norm_num [split_xray, np_searchsorted_left, List.countP, List.countP.go]

/-- C3 (amended): for a sorted abscissa, `split_xray` splits the bin array
exactly (`bath + xray = phot_N` bin by bin), the xray part vanishes on every
bin with energy outside the half-open band `[100 eV, 10 keV)`, and the bath
part vanishes on every bin with energy inside that half-open band.  (The
claim's closed band `[100 eV, 10 keV]` is accurate except at a bin lying
exactly at `10 keV`, which the code assigns to the bath part.) -/
theorem split_xray_spec (phot_N phot_eng : List ℚ)
    (hsort : phot_eng.Pairwise (· ≤ ·))
    (hlen : phot_N.length = phot_eng.length)
    (i : Nat) (hi : i < phot_N.length) :
    (split_xray phot_N phot_eng).1.getD i 0 + (split_xray phot_N phot_eng).2.getD i 0
      = phot_N.getD i 0 ∧
    ((phot_eng.getD i 0 < 100 ∨ 10000 ≤ phot_eng.getD i 0) →
      (split_xray phot_N phot_eng).2.getD i 0 = 0) ∧
    ((100 ≤ phot_eng.getD i 0 ∧ phot_eng.getD i 0 < 10000) →
      (split_xray phot_N phot_eng).1.getD i 0 = 0) := by
  have hie : i < phot_eng.length := hlen ▸ hi
  have hbath : (split_xray phot_N phot_eng).1.getD i 0 =
      if np_searchsorted_left phot_eng 100 ≤ i ∧ i < np_searchsorted_left phot_eng 10000
      then 0 else phot_N.getD i 0 := by
    rw [split_xray]
    exact rangeMap_getD _ _ i hi
  have hxray : (split_xray phot_N phot_eng).2.getD i 0 =
      if np_searchsorted_left phot_eng 100 ≤ i ∧ i < np_searchsorted_left phot_eng 10000
      then phot_N.getD i 0 else 0 := by
    rw [split_xray]
    exact rangeMap_getD _ _ i hi
  refine ⟨?_, ?_, ?_⟩
  · rw [hbath, hxray]
    by_cases hc : np_searchsorted_left phot_eng 100 ≤ i ∧ i < np_searchsorted_left phot_eng 10000
    · rw [if_pos hc, if_pos hc]; ring
    · rw [if_neg hc, if_neg hc]; ring
  · intro hout
    rw [hxray, if_neg]
    rcases hout with hlo | hhi
    · intro ⟨hc1, _⟩
      have : i < np_searchsorted_left phot_eng 100 := by
        rw [np_searchsorted_left]
        exact (getD_lt_iff_lt_countP _ phot_eng hsort i hie).mp hlo
      omega
    · intro ⟨_, hc2⟩
      have : phot_eng.getD i 0 < 10000 := by
        rw [np_searchsorted_left] at hc2
        exact (getD_lt_iff_lt_countP _ phot_eng hsort i hie).mpr hc2
      linarith
  · intro ⟨hband1, hband2⟩
    rw [hbath, if_pos]
    constructor
    · have : ¬ i < np_searchsorted_left phot_eng 100 := by
        rw [np_searchsorted_left]
        intro hcon
        have := (getD_lt_iff_lt_countP _ phot_eng hsort i hie).mpr hcon
        linarith
      omega
    · rw [np_searchsorted_left]
      exact (getD_lt_iff_lt_countP _ phot_eng hsort i hie).mp hband2

theorem split_xray_spec_witness :
    (List.Pairwise (· ≤ ·) [(50 : ℚ), 100, 5000, 10000] ∧
     ([(1 : ℚ), 2, 3, 4].length = [(50 : ℚ), 100, 5000, 10000].length) ∧
     2 < [(1 : ℚ), 2, 3, 4].length) ∧
    (split_xray [1, 2, 3, 4] [50, 100, 5000, 10000]).1.getD 2 0 +
      (split_xray [1, 2, 3, 4] [50, 100, 5000, 10000]).2.getD 2 0
      = [(1 : ℚ), 2, 3, 4].getD 2 0 :=
  ⟨⟨by norm_num, by norm_num, by norm_num⟩,
   (split_xray_spec [1, 2, 3, 4] [50, 100, 5000, 10000]
      (by norm_num) (by norm_num) 2 (by norm_num)).1⟩

/-! ### C8 : 10.2 eV bin zeroing -/

/-- C8: in the regular routine, the propagating-photon count at array index
149 (the 10.2 eV transition-line bin) is zeroed before the next bath
spectrum is assembled, so the assembled bin array at index 149 equals the
emitted-bath-band contribution alone, and the assembled array is unchanged
if the transfer-function wrapper had reported any other value `v` at that
bin.  (The subsequent redshift transform acts on the assembled array and
preserves this independence.) -/
theorem prepare_bath_N_spec (prop_phot_N emit_phot_N phot_eng : List ℚ)
    (v : ℚ) (h1 : 149 < prop_phot_N.length) (h2 : 149 < emit_phot_N.length) :
    (prepare_bath_N prop_phot_N emit_phot_N phot_eng).getD 149 0 =
      (split_xray emit_phot_N phot_eng).1.getD 149 0 ∧
    prepare_bath_N (prop_phot_N.set 149 v) emit_phot_N phot_eng =
      prepare_bath_N prop_phot_N emit_phot_N phot_eng := by
  constructor
  · have hbl : (split_xray emit_phot_N phot_eng).1.length = emit_phot_N.length := by
      rw [split_xray]; simp
    rw [prepare_bath_N, vecAdd]
    have hzl : 149 < (List.zipWith (· + ·) (prop_phot_N.set 149 0)
        (split_xray emit_phot_N phot_eng).1).length := by
      rw [List.length_zipWith, hbl]
      simp only [List.length_set]
      omega
    rw [List.getD_eq_getElem _ _ hzl]
    rw [List.getD_eq_getElem _ _ (by omega : 149 < (split_xray emit_phot_N phot_eng).1.length)]
    rw [List.getElem_zipWith]
    simp only [List.getElem_set_self]
    ring
  · rw [prepare_bath_N, prepare_bath_N, List.set_set]

theorem prepare_bath_N_spec_witness :
    (149 < (List.replicate 150 (1 : ℚ)).length ∧
     149 < (List.replicate 150 (2 : ℚ)).length) ∧
    prepare_bath_N ((List.replicate 150 (1 : ℚ)).set 149 5)
        (List.replicate 150 (2 : ℚ)) [100] =
      prepare_bath_N (List.replicate 150 (1 : ℚ))
        (List.replicate 150 (2 : ℚ)) [100] :=
  ⟨⟨by simp, by simp⟩,
   (prepare_bath_N_spec (List.replicate 150 (1 : ℚ)) (List.replicate 150 (2 : ℚ))
      [100] 5 (by simp) (by simp)).2⟩

/-! ### C9 : relative xray energy box guard -/

/-- C9: at a step of the regular routine where the total emitted xray energy
`np.dot(photE, emit_xray_N)` is exactly zero, the cached relative-energy box
is the all-zeros box of the same shape as `xray_eng_box` (`np.zeros_like`),
and the elementwise division is never executed with a zero divisor (the
result is always `some`); for a nonzero total the cached box is
`xray_eng_box` divided elementwise by the total. -/
theorem xray_rel_eng_box_spec (photE emit_xray_N : List ℚ)
    (xray_eng_box : Box3) :
    (xray_rel_eng_box_calc photE emit_xray_N xray_eng_box).isSome = true ∧
    xray_rel_eng_box_calc photE emit_xray_N xray_eng_box =
      some (if dotL photE emit_xray_N = 0 then zeros_like3 xray_eng_box
            else xray_eng_box.map (fun p => p.map (fun r =>
              r.map (fun x => x / dotL photE emit_xray_N)))) := by
  by_cases h : dotL photE emit_xray_N = 0
  · simp [xray_rel_eng_box_calc, h]
  · simp [xray_rel_eng_box_calc, boxDivChecked, h]

/-! ### C5 : interp1d / interp2d at grid points -/

theorem clampGet_of_lt (xp : List ℚ) (i : Nat) (hi : i < xp.length) :
    clampGet 0 xp i = xp.getD i 0 := by
  have hmin : min i (xp.length - 1) = i := by omega
  rw [clampGet, hmin]

theorem clampGet_row_of_lt (fp2 : List (List ℚ)) (i : Nat)
    (hi : i < fp2.length) :
    clampGet [] fp2 i = fp2.getD i [] := by
  have hmin : min i (fp2.length - 1) = i := by omega
  rw [clampGet, hmin]

theorem getD_lt_getD_of_pairwise (xp : List ℚ) (hp : xp.Pairwise (· < ·))
    (i j : Nat) (hij : i < j) (hj : j < xp.length) :
    xp.getD i 0 < xp.getD j 0 := by
  have hi : i < xp.length := lt_trans hij hj
  rw [List.getD_eq_getElem _ _ hi, List.getD_eq_getElem _ _ hj]
  exact List.pairwise_iff_get.mp hp ⟨i, hi⟩ ⟨j, hj⟩ hij

/-- C5, counterexample to the claim as stated: at the last grid point the
weight denominator `xp[il+1] - xp[il]` is `xp[n-1] - xp[n-1] = 0` (jax clamps
the out-of-range gather index `il+1 = n`), so the float division is `0/0`
(NaN) and `interp1d` does not return the stored value `fp[n-1]`.  With
`xp = [0, 1]`, `fp = [2, 5]` and query `x = xp[1] = 1` the result is the
non-finite marker, not `some 5`. -/
theorem interp_at_grid_counterexample :
    List.Pairwise (· < ·) [(0 : ℚ), 1] ∧
    interp1d [(2 : ℚ), 5] [0, 1] ([(0 : ℚ), 1].getD 1 0) = none ∧
    ¬ interp1d [(2 : ℚ), 5] [0, 1] ([(0 : ℚ), 1].getD 1 0) =
        some ([(2 : ℚ), 5].getD 1 0) := by
  have h1 : interp1d [(2 : ℚ), 5] [0, 1] ([(0 : ℚ), 1].getD 1 0) = none := by
    norm_num [interp1d, np_searchsorted_right, clampGet,
      List.countP, List.countP.go]
  refine ⟨by norm_num, h1, ?_⟩
  rw [h1]
  simp

/-- C5 (amended): on strictly sorted abscissas, `interp1d` returns exactly
the stored value `fp[i]` whenever the query coincides with grid point
`xp[i]` for every index `i` except the last (`i + 1 < xp.length`), and
`interp2d` returns exactly the stored value `fp[i0, i1]` whenever the query
pair coincides with `(x0p[i0], x1p[i1])` for indices that are not last on
their axis.  (At a last grid point the weight denominator is zero and the
result is non-finite; see the counterexample.) -/
theorem interp_at_grid_spec (fp xp : List ℚ) (i : Nat)
    (hxs : xp.Pairwise (· < ·)) (hi : i + 1 < xp.length)
    (hflen : fp.length = xp.length)
    (fp2 : List (List ℚ)) (x0p x1p : List ℚ) (i0 i1 : Nat)
    (hx0 : x0p.Pairwise (· < ·)) (hx1 : x1p.Pairwise (· < ·))
    (hi0 : i0 + 1 < x0p.length) (hi1 : i1 + 1 < x1p.length)
    (hf2len : fp2.length = x0p.length)
    (hf2row : ∀ r ∈ fp2, r.length = x1p.length) :
    interp1d fp xp (xp.getD i 0) = some (fp.getD i 0) ∧
    interp2d fp2 x0p x1p (x0p.getD i0 0, x1p.getD i1 0) =
      some ((fp2.getD i0 []).getD i1 0) := by
  constructor
  · have hilt : i < xp.length := by omega
    have hss : np_searchsorted_right xp (xp.getD i 0) = i + 1 :=
      np_searchsorted_right_at_grid xp hxs i hilt
    have hd : clampGet 0 xp (i + 1) - clampGet 0 xp i ≠ 0 := by
      rw [clampGet_of_lt _ _ hi, clampGet_of_lt _ _ hilt]
      have := getD_lt_getD_of_pairwise xp hxs i (i + 1) (by omega) hi
      intro hcon
      have : xp.getD (i + 1) 0 = xp.getD i 0 := by linarith [sub_eq_zero.mp hcon]
      linarith
    rw [interp1d]
    simp only [hss, Nat.add_sub_cancel]
    rw [if_neg hd]
    rw [clampGet_of_lt _ _ hi, clampGet_of_lt _ _ hilt,
        clampGet_of_lt fp (i + 1) (by omega), clampGet_of_lt fp i (by omega)]
    have hdv : (xp.getD (i + 1) 0 - xp.getD i 0) ≠ 0 := by
      rw [clampGet_of_lt _ _ hi, clampGet_of_lt _ _ hilt] at hd
      exact hd
    rw [div_self hdv]
    norm_num
  · have hi0lt : i0 < x0p.length := by omega
    have hi1lt : i1 < x1p.length := by omega
    have hss0 : np_searchsorted_right x0p (x0p.getD i0 0) = i0 + 1 :=
      np_searchsorted_right_at_grid x0p hx0 i0 hi0lt
    have hss1 : np_searchsorted_right x1p (x1p.getD i1 0) = i1 + 1 :=
      np_searchsorted_right_at_grid x1p hx1 i1 hi1lt
    have hd0 : clampGet 0 x0p (i0 + 1) - clampGet 0 x0p i0 ≠ 0 := by
      rw [clampGet_of_lt _ _ hi0, clampGet_of_lt _ _ hi0lt]
      have := getD_lt_getD_of_pairwise x0p hx0 i0 (i0 + 1) (by omega) hi0
      intro hcon
      have : x0p.getD (i0 + 1) 0 = x0p.getD i0 0 := by linarith [sub_eq_zero.mp hcon]
      linarith
    have hd1 : clampGet 0 x1p (i1 + 1) - clampGet 0 x1p i1 ≠ 0 := by
      rw [clampGet_of_lt _ _ hi1, clampGet_of_lt _ _ hi1lt]
      have := getD_lt_getD_of_pairwise x1p hx1 i1 (i1 + 1) (by omega) hi1
      intro hcon
      have : x1p.getD (i1 + 1) 0 = x1p.getD i1 0 := by linarith [sub_eq_zero.mp hcon]
      linarith
    rw [interp2d]
    simp only [hss0, hss1, Nat.add_sub_cancel]
    rw [if_neg (by tauto)]
    have hw0 : (clampGet 0 x0p (i0 + 1) - x0p.getD i0 0) /
        (clampGet 0 x0p (i0 + 1) - clampGet 0 x0p i0) = 1 := by
      rw [clampGet_of_lt _ _ hi0, clampGet_of_lt _ _ hi0lt]
      apply div_self
      rw [clampGet_of_lt _ _ hi0, clampGet_of_lt _ _ hi0lt] at hd0
      exact hd0
    have hw1 : (clampGet 0 x1p (i1 + 1) - x1p.getD i1 0) /
        (clampGet 0 x1p (i1 + 1) - clampGet 0 x1p i1) = 1 := by
      rw [clampGet_of_lt _ _ hi1, clampGet_of_lt _ _ hi1lt]
      apply div_self
      rw [clampGet_of_lt _ _ hi1, clampGet_of_lt _ _ hi1lt] at hd1
      exact hd1
    rw [hw0, hw1]
    rw [clampGet_row_of_lt fp2 i0 (by omega)]
    have hrow : (fp2.getD i0 []).length = x1p.length := by
      apply hf2row
      rw [List.getD_eq_getElem _ _ (by omega : i0 < fp2.length)]
      exact List.getElem_mem (by omega)
    rw [clampGet_of_lt (fp2.getD i0 []) i1 (by rw [hrow]; omega)]
    norm_num

theorem interp_at_grid_spec_witness :
    (List.Pairwise (· < ·) [(0 : ℚ), 1, 2] ∧ List.Pairwise (· < ·) [(0 : ℚ), 1] ∧
     1 + 1 < [(0 : ℚ), 1, 2].length ∧ 0 + 1 < [(0 : ℚ), 1].length) ∧
    interp1d [(3 : ℚ), 4, 6] [0, 1, 2] ([(0 : ℚ), 1, 2].getD 1 0) =
      some ([(3 : ℚ), 4, 6].getD 1 0) ∧
    interp2d [[(7 : ℚ), 8], [9, 10]] [0, 1] [0, 1]
        ([(0 : ℚ), 1].getD 0 0, [(0 : ℚ), 1].getD 0 0) =
      some (([[(7 : ℚ), 8], [9, 10]].getD 0 []).getD 0 0) := by
  have h := interp_at_grid_spec [(3 : ℚ), 4, 6] [0, 1, 2] 1
      (by norm_num [List.pairwise_cons]) (by norm_num) (by norm_num)
      [[(7 : ℚ), 8], [9, 10]] [0, 1] [0, 1] 0 0
      (by norm_num [List.pairwise_cons]) (by norm_num [List.pairwise_cons])
      (by norm_num) (by norm_num) (by norm_num)
      (by intro r hr
          rcases List.mem_cons.mp hr with h1 | h1
          · subst h1; rfl
          · rcases List.mem_cons.mp h1 with h2 | h2
            · subst h2; rfl
            · simp at h2)
  exact ⟨⟨by norm_num [List.pairwise_cons], by norm_num [List.pairwise_cons],
          by norm_num, by norm_num⟩, h.1, h.2⟩

/-! ### C4 : out-of-bounds policy -/

/-- The bounds check `v_is_within` is componentwise membership in the closed
interval `[jnp.min absc, jnp.max absc]`. -/
theorem v_is_within_iff (v absc : List ℚ) :
    v_is_within v absc = true ↔ ∀ q ∈ v, jmin absc ≤ q ∧ q ≤ jmax absc := by
  rw [v_is_within, Bool.and_eq_true, List.all_eq_true, List.all_eq_true]
  constructor
  · intro ⟨h1, h2⟩ q hq
    exact ⟨by simpa using h1 q hq, by simpa using h2 q hq⟩
  · intro h
    exact ⟨fun q hq => by simpa using (h q hq).1, fun q hq => by simpa using (h q hq).2⟩

theorem clipQ_mem (v lo hi : ℚ) (h : lo ≤ hi) :
    lo ≤ clipQ v lo hi ∧ clipQ v lo hi ≤ hi := by
  constructor
  · exact le_min (le_max_right v lo) h
  · exact min_le_right _ _

/-- C4, counterexample to the claim as stated: with an `x` abscissa whose
minimum is `0` (the table `[0, 1]`), the clip policy maps the query `0` to
`jnp.clip(0, 0 * 1.00001, 1 / 1.00001) = 0`, which lies on the boundary and
not strictly within the abscissa range, so under `clip` the query is not
moved strictly inside. -/
theorem oob_preamble_counterexample :
    oob_preamble ⟨[0, 1], [0, 1], [0, 1]⟩ .clip [0] [0] [0] =
      .ok ([0], [0], [0]) ∧
    ¬ strictlyWithin [(0 : ℚ)] [0, 1] = true := by
  constructor
  · norm_num [oob_preamble, clipAxis, clipQ, jmin, jmax, oobFactor]
  · norm_num [strictlyWithin, jmin, jmax]

/-- C4 (amended): for every loaded table and every query, under `error`
`__call__` raises exactly when some component of `rs`, `x_s` or `nBs_s`
fails the `v_is_within` check against the corresponding abscissa (membership
in the closed interval `[jnp.min, jnp.max]`, see `v_is_within_iff`), and
under `clip` no error is raised and the three query arrays are clipped to
`[jnp.min * 1.00001, jnp.max / 1.00001]` — both unconditionally.  On each
axis whose abscissa has a strictly positive minimum and is wide enough that
`jmin * 1.00001 ≤ jmax / 1.00001`, every clipped component additionally lies
strictly within the open abscissa range.  (For an abscissa with minimum
`≤ 0`, or one narrower than the nudge factor squared, strict interiority can
fail; see the counterexample.) -/
theorem oob_preamble_spec (abscs : InterpAbscs) (rs_q x_s nBs_s : List ℚ) :
    (isErr (oob_preamble abscs .error rs_q x_s nBs_s) =
      ! (v_is_within rs_q abscs.rs && v_is_within x_s abscs.x &&
         v_is_within nBs_s abscs.nBs)) ∧
    oob_preamble abscs .clip rs_q x_s nBs_s =
      .ok (clipAxis abscs.rs rs_q, clipAxis abscs.x x_s,
           clipAxis abscs.nBs nBs_s) ∧
    (0 < jmin abscs.rs → jmin abscs.rs * oobFactor ≤ jmax abscs.rs / oobFactor →
      strictlyWithin (clipAxis abscs.rs rs_q) abscs.rs = true) ∧
    (0 < jmin abscs.x → jmin abscs.x * oobFactor ≤ jmax abscs.x / oobFactor →
      strictlyWithin (clipAxis abscs.x x_s) abscs.x = true) ∧
    (0 < jmin abscs.nBs → jmin abscs.nBs * oobFactor ≤ jmax abscs.nBs / oobFactor →
      strictlyWithin (clipAxis abscs.nBs nBs_s) abscs.nBs = true) := by
  have key : ∀ (absc v : List ℚ), 0 < jmin absc →
      jmin absc * oobFactor ≤ jmax absc / oobFactor →
      strictlyWithin (clipAxis absc v) absc = true := by
    intro absc v hpos hwide
    have hfac : (1 : ℚ) < oobFactor := by norm_num [oobFactor]
    have hlo : jmin absc < jmin absc * oobFactor := by
      nlinarith
    have hmaxpos : 0 < jmax absc := by
      have h1 : 0 < jmin absc * oobFactor := by positivity
      have h2 : 0 < jmax absc / oobFactor := lt_of_lt_of_le h1 hwide
      have h3 : (0 : ℚ) < oobFactor := by norm_num [oobFactor]
      calc (0 : ℚ) = 0 * oobFactor := by ring
      _ < jmax absc / oobFactor * oobFactor := by
          exact mul_lt_mul_of_pos_right h2 h3
      _ = jmax absc := by field_simp
    have hhi : jmax absc / oobFactor < jmax absc := by
      rw [div_lt_iff (by norm_num [oobFactor] : (0:ℚ) < oobFactor)]
      nlinarith
    rw [strictlyWithin, List.all_eq_true]
    intro q hq
    rw [clipAxis] at hq
    obtain ⟨q0, _, hq0⟩ := List.mem_map.mp hq
    have hm := clipQ_mem q0 (jmin absc * oobFactor) (jmax absc / oobFactor) hwide
    rw [← hq0]
    simp only [Bool.and_eq_true, decide_eq_true_eq]
    exact ⟨lt_of_lt_of_le hlo hm.1, lt_of_le_of_lt hm.2 hhi⟩
  refine ⟨?_, rfl, fun h1 h2 => key abscs.rs rs_q h1 h2,
          fun h1 h2 => key abscs.x x_s h1 h2,
          fun h1 h2 => key abscs.nBs nBs_s h1 h2⟩
  cases hb1 : v_is_within rs_q abscs.rs <;>
    cases hb2 : v_is_within x_s abscs.x <;>
      cases hb3 : v_is_within nBs_s abscs.nBs <;>
        simp [oob_preamble, isErr, hb1, hb2, hb3]

theorem oob_preamble_spec_witness :
    ((0 : ℚ) < jmin [1, 2] ∧
     jmin [(1 : ℚ), 2] * oobFactor ≤ jmax [(1 : ℚ), 2] / oobFactor) ∧
    oob_preamble ⟨[1, 2], [1, 2], [1, 2]⟩ .clip [1] [3] [1] =
      .ok (clipAxis [1, 2] [1], clipAxis [1, 2] [3], clipAxis [1, 2] [1]) ∧
    strictlyWithin (clipAxis [1, 2] [1]) [(1 : ℚ), 2] = true :=
  ⟨⟨by norm_num [jmin], by norm_num [jmin, jmax, oobFactor]⟩,
   (oob_preamble_spec ⟨[1, 2], [1, 2], [1, 2]⟩ [1] [3] [1]).2.1,
   (oob_preamble_spec ⟨[1, 2], [1, 2], [1, 2]⟩ [1] [3] [1]).2.2.1
     (by norm_num [jmin]) (by norm_num [jmin, jmax, oobFactor])⟩

/-! ### C7 : fixed input-spectrum cache -/

/-- C7: the equality-checked fast path never changes the energy-axis
contraction: if `set_fixed_in_spec(s)` stored the cache
`fixed_in_spec_data = einsum('e,renxo->rnxo', s, data)`, then for every
`in_spec` the selection step of `__call__` (cached value when
`in_spec == fixed_in_spec` elementwise, recomputed einsum otherwise) yields
exactly the recomputed `einsum('e,renxo->rnxo', in_spec, data)`; likewise
with no stored spectrum.  Every downstream quantity of `__call__` is a
function of this contraction, so no output of `__call__` is changed by the
cache. -/
theorem select_in_spec_data_spec (data : List (List T3)) (s in_spec : List ℚ) :
    select_in_spec_data in_spec (some s) (einsum_e s data) data =
      einsum_e in_spec data ∧
    select_in_spec_data in_spec none (einsum_e s data) data =
      einsum_e in_spec data := by
  constructor
  · rw [select_in_spec_data]
    by_cases h : in_spec = s
    · rw [if_pos h, h]
    · rw [if_neg h]
  · rfl

/-! ### C1 : at-most-once folding of box-averaged shells -/

theorem foldShellStep_ptr_le (avg : Nat → Nat → Bool)
    (spec : Nat → Nat → List ℚ) (i_z : Nat) (s : XrayLoopState) (a : Nat) :
    s.i_xray_loop_start ≤ (foldShellStep avg spec i_z s a).i_xray_loop_start := by
  rw [foldShellStep]
  by_cases hb : avg i_z a
  · rw [if_pos hb]; exact le_max_right _ _
  · rw [if_neg hb]

theorem foldl_shell_ptr_le (avg : Nat → Nat → Bool)
    (spec : Nat → Nat → List ℚ) (i_z : Nat) :
    ∀ (l : List Nat) (s : XrayLoopState),
      s.i_xray_loop_start ≤
        (l.foldl (foldShellStep avg spec i_z) s).i_xray_loop_start := by
  intro l
  induction l with
  | nil => intro s; exact le_refl _
  | cons a t ih =>
      intro s
      exact le_trans (foldShellStep_ptr_le avg spec i_z s a) (ih _)

theorem foldl_shell_inv (avg : Nat → Nat → Bool)
    (spec : Nat → Nat → List ℚ) (i_z : Nat) :
    ∀ (l : List Nat) (s : XrayLoopState), l.Pairwise (· < ·) →
      (∀ j ∈ l, s.i_xray_loop_start ≤ j) →
      (s.folded.map Prod.snd).Nodup →
      (∀ p ∈ s.folded, p.2 < s.i_xray_loop_start) →
      ((l.foldl (foldShellStep avg spec i_z) s).folded.map Prod.snd).Nodup ∧
      (∀ p ∈ (l.foldl (foldShellStep avg spec i_z) s).folded,
        p.2 < (l.foldl (foldShellStep avg spec i_z) s).i_xray_loop_start) := by
  intro l
  induction l with
  | nil => intro s _ _ h3 h4; exact ⟨h3, h4⟩
  | cons a t ih =>
      intro s hp hj h3 h4
      have hat : ∀ j ∈ t, a < j := (List.pairwise_cons.mp hp).1
      have hpt : t.Pairwise (· < ·) := (List.pairwise_cons.mp hp).2
      have hsa : s.i_xray_loop_start ≤ a := hj a (List.mem_cons_self a t)
      simp only [List.foldl_cons]
      by_cases hb : avg i_z a
      · rw [foldShellStep, if_pos hb]
        refine ih _ hpt ?_ ?_ ?_
        · intro j hjt
          simp only []
          exact max_le (Nat.succ_le_of_lt (hat j hjt)) (le_trans hsa (le_of_lt (hat j hjt)))
        · simp only [List.map_append]
          rw [List.nodup_append]
          refine ⟨h3, List.nodup_singleton _, ?_⟩
          intro b hb1 hb2
          simp only [List.map_cons, List.map_nil, List.mem_singleton] at hb2
          obtain ⟨p, hp1, hp2⟩ := List.mem_map.mp hb1
          have := h4 p hp1
          omega
        · intro p hpmem
          simp only []
          rcases List.mem_append.mp hpmem with hold | hnew
          · exact lt_of_lt_of_le (h4 p hold) (le_max_right _ _)
          · simp only [List.mem_singleton] at hnew
            subst hnew
            exact lt_of_lt_of_le (Nat.lt_succ_self a) (le_max_left _ _)
      · rw [foldShellStep, if_neg hb]
        exact ih _ hpt (fun j hjt => hj j (List.mem_cons_of_mem a hjt)) h3 h4

theorem foldl_shell_bath (avg : Nat → Nat → Bool)
    (spec : Nat → Nat → List ℚ) (i_z : Nat) (bath0 : List ℚ) :
    ∀ (l : List Nat) (s : XrayLoopState),
      s.phot_bath_N =
        s.folded.foldl (fun b p => vecAdd b (spec p.1 p.2)) bath0 →
      (l.foldl (foldShellStep avg spec i_z) s).phot_bath_N =
        (l.foldl (foldShellStep avg spec i_z) s).folded.foldl
          (fun b p => vecAdd b (spec p.1 p.2)) bath0 := by
  intro l
  induction l with
  | nil => intro s h; exact h
  | cons a t ih =>
      intro s h
      simp only [List.foldl_cons]
      by_cases hb : avg i_z a
      · rw [foldShellStep, if_pos hb]
        refine ih _ ?_
        simp only [List.foldl_append, List.foldl_cons, List.foldl_nil]
        rw [h]
      · rw [foldShellStep, if_neg hb]
        exact ih _ h

theorem xrayShellLoop_inv (avg : Nat → Nat → Bool)
    (spec : Nat → Nat → List ℚ) (i_z : Nat) (bath0 : List ℚ)
    (s : XrayLoopState)
    (h3 : (s.folded.map Prod.snd).Nodup)
    (h4 : ∀ p ∈ s.folded, p.2 < s.i_xray_loop_start)
    (h5 : s.phot_bath_N =
      s.folded.foldl (fun b p => vecAdd b (spec p.1 p.2)) bath0) :
    s.i_xray_loop_start ≤ (xrayShellLoop avg spec i_z s).i_xray_loop_start ∧
    ((xrayShellLoop avg spec i_z s).folded.map Prod.snd).Nodup ∧
    (∀ p ∈ (xrayShellLoop avg spec i_z s).folded,
      p.2 < (xrayShellLoop avg spec i_z s).i_xray_loop_start) ∧
    (xrayShellLoop avg spec i_z s).phot_bath_N =
      (xrayShellLoop avg spec i_z s).folded.foldl
        (fun b p => vecAdd b (spec p.1 p.2)) bath0 := by
  have hinv := foldl_shell_inv avg spec i_z
    (List.range' s.i_xray_loop_start (i_z - s.i_xray_loop_start)) s
    (List.pairwise_lt_range' _ _)
    (fun j hjm => (List.mem_range'_1.mp hjm).1) h3 h4
  exact ⟨foldl_shell_ptr_le avg spec i_z _ s, hinv.1, hinv.2,
    foldl_shell_bath avg spec i_z bath0 _ s h5⟩

theorem xrayRun_inv (avg : Nat → Nat → Bool) (spec : Nat → Nat → List ℚ)
    (bath0 : List ℚ) :
    ∀ (il : List Nat) (s : XrayLoopState),
      (s.folded.map Prod.snd).Nodup →
      (∀ p ∈ s.folded, p.2 < s.i_xray_loop_start) →
      (s.phot_bath_N =
        s.folded.foldl (fun b p => vecAdd b (spec p.1 p.2)) bath0) →
      s.i_xray_loop_start ≤
        (il.foldl (fun st i_z => xrayShellLoop avg spec i_z st) s).i_xray_loop_start ∧
      ((il.foldl (fun st i_z => xrayShellLoop avg spec i_z st) s).folded.map
        Prod.snd).Nodup ∧
      (∀ p ∈ (il.foldl (fun st i_z => xrayShellLoop avg spec i_z st) s).folded,
        p.2 < (il.foldl (fun st i_z => xrayShellLoop avg spec i_z st) s).i_xray_loop_start) ∧
      (il.foldl (fun st i_z => xrayShellLoop avg spec i_z st) s).phot_bath_N =
        (il.foldl (fun st i_z => xrayShellLoop avg spec i_z st) s).folded.foldl
          (fun b p => vecAdd b (spec p.1 p.2)) bath0 := by
  intro il
  induction il with
  | nil => intro s h3 h4 h5; exact ⟨le_refl _, h3, h4, h5⟩
  | cons i t ih =>
      intro s h3 h4 h5
      have hstep := xrayShellLoop_inv avg spec i bath0 s h3 h4 h5
      have hrest := ih (xrayShellLoop avg spec i s) hstep.2.1 hstep.2.2.1 hstep.2.2.2
      simp only [List.foldl_cons]
      exact ⟨le_trans hstep.1 hrest.1, hrest.2.1, hrest.2.2.1, hrest.2.2.2⟩

/-- C1: over the regular (non-xraycheck) routine, for every cut `m ≤ n` of
the main loop, the annulus consumption pointer `i_xray_loop_start` is
non-decreasing; over the whole run the list of fold events has pairwise
distinct shell indices (each donor shell's cached spectrum is added into
`phot_bath_spec` at most once); every folded shell index lies strictly below
the final pointer (and the pointer at every later step is at least as large,
so no later iteration's shell-range `range(i_xray_loop_start, i_z)` visits a
folded index again); and the final bath equals the initial bath with each
folded shell's spectrum added exactly once, in fold order. -/
theorem xray_fold_once_spec (avg : Nat → Nat → Bool)
    (spec : Nat → Nat → List ℚ) (bath0 : List ℚ) (m n : Nat) (hmn : m ≤ n) :
    (xrayRun avg spec bath0 m).i_xray_loop_start ≤
      (xrayRun avg spec bath0 n).i_xray_loop_start ∧
    ((xrayRun avg spec bath0 n).folded.map Prod.snd).Nodup ∧
    (∀ p ∈ (xrayRun avg spec bath0 n).folded,
      p.2 < (xrayRun avg spec bath0 n).i_xray_loop_start) ∧
    (xrayRun avg spec bath0 n).phot_bath_N =
      (xrayRun avg spec bath0 n).folded.foldl
        (fun b p => vecAdd b (spec p.1 p.2)) bath0 := by
  have hinit := xrayRun_inv avg spec bath0 (List.range m)
    ⟨0, [], bath0⟩ (by simp) (by simp) (by simp)
  have hm : (xrayRun avg spec bath0 m).folded.map Prod.snd
      |>.Nodup := hinit.2.1
  obtain ⟨k, hk⟩ := Nat.exists_eq_add_of_le hmn
  have hsplit : List.range n = List.range m ++ (List.range k).map (m + ·) := by
    rw [hk]
    exact List.range_add m k
  have hruns : xrayRun avg spec bath0 n =
      ((List.range k).map (m + ·)).foldl
        (fun st i_z => xrayShellLoop avg spec i_z st)
        (xrayRun avg spec bath0 m) := by
    rw [xrayRun, hsplit, List.foldl_append]
    rfl
  have hrest := xrayRun_inv avg spec bath0 ((List.range k).map (m + ·))
    (xrayRun avg spec bath0 m) hinit.2.1 hinit.2.2.1 hinit.2.2.2
  rw [hruns]
  exact hrest

theorem xray_fold_once_spec_witness :
    1 ≤ 2 ∧
    ((xrayRun (fun _ i => decide (i = 0)) (fun _ _ => [1]) [0] 2).folded.map
      Prod.snd).Nodup :=
  ⟨by norm_num,
   (xray_fold_once_spec (fun _ i => decide (i = 0)) (fun _ _ => [1]) [0] 1 2
      (by norm_num)).2.1⟩

/-! ### C6 : batched sum reduction -/

theorem vecAdd_assoc : ∀ (a b c : List ℚ),
    vecAdd (vecAdd a b) c = vecAdd a (vecAdd b c) := by
  intro a
  induction a with
  | nil => intro b c; simp [vecAdd]
  | cons x xs ih =>
      intro b c
      cases b with
      | nil => simp [vecAdd]
      | cons y ys =>
          cases c with
          | nil => simp [vecAdd]
          | cons z zs =>
              simp only [vecAdd, List.zipWith_cons_cons, List.cons.injEq]
              exact ⟨add_assoc x y z, ih ys zs⟩

theorem ovAdd_assoc (a b c : Option (List ℚ)) :
    ovAdd (ovAdd a b) c = ovAdd a (ovAdd b c) := by
  cases a <;> cases b <;> cases c <;>
    simp [ovAdd, Option.map₂, vecAdd_assoc]

theorem foldl_ovAdd_shift (x : Option (List ℚ)) :
    ∀ (l : List (Option (List ℚ))) (y : Option (List ℚ)),
      l.foldl ovAdd (ovAdd x y) = ovAdd x (l.foldl ovAdd y) := by
  intro l
  induction l with
  | nil => intro y; simp
  | cons r t ih =>
      intro y
      simp only [List.foldl_cons]
      rw [ovAdd_assoc]
      exact ih (ovAdd y r)

theorem foldl_ovAdd_len (n : Nat) :
    ∀ (l : List (Option (List ℚ))) (a : Option (List ℚ)),
      (∀ v, a = some v → v.length ≤ n) →
      ∀ v, l.foldl ovAdd a = some v → v.length ≤ n := by
  intro l
  induction l with
  | nil => intro a ha v hv; exact ha v hv
  | cons r t ih =>
      intro a ha
      refine ih (ovAdd a r) ?_
      intro v hv
      cases a with
      | none => simp [ovAdd, Option.map₂] at hv
      | some va =>
          cases r with
          | none => simp [ovAdd, Option.map₂] at hv
          | some vr =>
              simp only [ovAdd, Option.map₂, Option.some_bind,
                Option.map_some', Option.some.injEq] at hv
              subst hv
              rw [vecAdd, List.length_zipWith]
              exact le_trans (min_le_left _ _) (ha va rfl)

theorem vecAdd_replicate_right : ∀ (v : List ℚ) (n : Nat), v.length ≤ n →
    vecAdd v (List.replicate n 0) = v := by
  intro v
  induction v with
  | nil => intro n _; simp [vecAdd]
  | cons x xs ih =>
      intro n h
      cases n with
      | zero => simp at h
      | succ m =>
          simp only [List.replicate_succ, vecAdd, List.zipWith_cons_cons,
            List.cons.injEq]
          exact ⟨add_zero x, ih m (by simpa using h)⟩

theorem rowZeros_len (n : Nat) : ∀ v, rowZeros n = some v → v.length ≤ n := by
  intro v h
  rw [rowZeros, Option.some.injEq] at h
  rw [← h, List.length_replicate]

theorem ovAdd_rowZeros_right (n : Nat) (a : Option (List ℚ))
    (ha : ∀ v, a = some v → v.length ≤ n) : ovAdd a (rowZeros n) = a := by
  cases a with
  | none => simp [ovAdd, Option.map₂]
  | some v =>
      simp only [ovAdd, rowZeros, Option.map₂, Option.some_bind,
        Option.map_some', Option.some.injEq]
      exact vecAdd_replicate_right v n (ha v rfl)

theorem jnpSumRows_append (A B : List (Option (List ℚ))) (n : Nat) :
    jnpSumRows (A ++ B) n = ovAdd (jnpSumRows A n) (jnpSumRows B n) := by
  rw [jnpSumRows, jnpSumRows, jnpSumRows, List.foldl_append]
  have hlen : ∀ v, A.foldl ovAdd (rowZeros n) = some v → v.length ≤ n :=
    foldl_ovAdd_len n A (rowZeros n) (rowZeros_len n)
  conv_lhs => rw [← ovAdd_rowZeros_right n (A.foldl ovAdd (rowZeros n)) hlen]
  exact foldl_ovAdd_shift _ B _

theorem foldl_chunks_sum (n : Nat) :
    ∀ (chunks : List (List (Option (List ℚ)))) (A : List (Option (List ℚ))),
      chunks.foldl (fun acc ch => ovAdd acc (jnpSumRows ch n)) (jnpSumRows A n)
        = jnpSumRows (A ++ chunks.flatten) n := by
  intro chunks
  induction chunks with
  | nil => intro A; simp
  | cons c rest ih =>
      intro A
      simp only [List.foldl_cons]
      rw [← jnpSumRows_append A c n, ih (A ++ c), List.flatten_cons,
        List.append_assoc]

theorem foldl_chunks_sum_z (n : Nat)
    (chunks : List (List (Option (List ℚ)))) :
    chunks.foldl (fun acc ch => ovAdd acc (jnpSumRows ch n)) (rowZeros n)
      = jnpSumRows chunks.flatten n := by
  have h := foldl_chunks_sum n chunks []
  simpa [jnpSumRows] using h

theorem sum_splitSizes_aux (q r : Nat) :
    ∀ m, ((List.range m).map (fun i => q + if i < r then 1 else 0)).sum
      = m * q + min m r := by
  intro m
  induction m with
  | zero => simp
  | succ k ih =>
      rw [List.range_succ, List.map_append, List.sum_append]
      simp only [List.map_cons, List.map_nil, List.sum_cons, List.sum_nil]
      rw [ih]
      by_cases hk : k < r
      · rw [if_pos hk]
        have h1 : min k r = k := by omega
        have h2 : min (k + 1) r = k + 1 := by omega
        rw [h1, h2]; ring
      · rw [if_neg hk]
        have h1 : min k r = r := by omega
        have h2 : min (k + 1) r = r := by omega
        rw [h1, h2]; ring

theorem sum_splitSizes (len n : Nat) (h : 0 < n) : (splitSizes len n).sum = len := by
  rw [splitSizes, sum_splitSizes_aux]
  have hmod : len % n < n := Nat.mod_lt _ h
  have hdm := Nat.div_add_mod len n
  omega

theorem takeChunks_flatten {α : Type} :
    ∀ (sizes : List Nat) (l : List α), l.length ≤ sizes.sum →
      (takeChunks sizes l).flatten = l := by
  intro sizes
  induction sizes with
  | nil =>
      intro l h
      have hl : l = [] := List.eq_nil_of_length_eq_zero
        (Nat.le_zero.mp (by simpa using h))
      subst hl; rfl
  | cons s ss ih =>
      intro l h
      rw [takeChunks, List.flatten_cons]
      have hd : (l.drop s).length ≤ ss.sum := by
        simp only [List.length_drop]
        simp only [List.sum_cons] at h
        omega
      rw [ih (l.drop s) hd]
      exact List.take_append_drop s l

theorem np_array_split_flatten {α : Type} (l : List α) (n : Nat) (h : 0 < n) :
    (np_array_split l n).flatten = l :=
  takeChunks_flatten _ _ (by rw [sum_splitSizes _ _ h])

theorem takeChunks_map {α β : Type} (g : α → β) :
    ∀ (sizes : List Nat) (l : List α),
      (takeChunks sizes l).map (List.map g) = takeChunks sizes (l.map g) := by
  intro sizes
  induction sizes with
  | nil => intro l; rfl
  | cons s ss ih =>
      intro l
      rw [takeChunks, takeChunks, List.map_cons, List.map_take, ih, List.map_drop]

theorem zipWith_take_take {α β γ : Type} (h : α → β → γ) :
    ∀ (w : List α) (l : List β) (s : Nat),
      List.zipWith h (w.take s) (l.take s) = (List.zipWith h w l).take s := by
  intro w
  induction w with
  | nil => intro l s; simp
  | cons a as ih =>
      intro l s
      cases l with
      | nil => simp
      | cons b bs =>
          cases s with
          | zero => simp
          | succ k => simp [ih bs k]

theorem zipWith_drop_drop {α β γ : Type} (h : α → β → γ) :
    ∀ (w : List α) (l : List β) (s : Nat),
      List.zipWith h (w.drop s) (l.drop s) = (List.zipWith h w l).drop s := by
  intro w
  induction w with
  | nil => intro l s; simp
  | cons a as ih =>
      intro l s
      cases l with
      | nil => simp
      | cons b bs =>
          cases s with
          | zero => simp
          | succ k => simp [ih bs k]

theorem takeChunks_zipWith {α β γ : Type} (h : α → β → γ) :
    ∀ (sizes : List Nat) (w : List α) (l : List β),
      ((takeChunks sizes w).zip (takeChunks sizes l)).map
          (fun p => List.zipWith h p.1 p.2)
        = takeChunks sizes (List.zipWith h w l) := by
  intro sizes
  induction sizes with
  | nil => intro w l; rfl
  | cons s ss ih =>
      intro w l
      rw [takeChunks, takeChunks, takeChunks, List.zip_cons_cons, List.map_cons]
      congr 1
      · exact zipWith_take_take h w l s
      · rw [ih (w.drop s) (l.drop s)]
        congr 1
        exact zipWith_drop_drop h w l s

theorem ceilDivNat_pos (len b : Nat) (hlen : 0 < len) (hb : 0 < b) :
    0 < ceilDivNat len b := by
  rw [ceilDivNat]
  exact (Nat.le_div_iff_mul_le hb).mpr (by omega)

theorem call_sum_result_none (fp : List (List (List ℚ))) (x0p x1p : List ℚ)
    (qs : List (ℚ × ℚ)) (b nout : Nat) (hb : 0 < b) (hqs : qs ≠ []) :
    call_sum_result fp x0p x1p qs none b nout =
      jnpSumRows (interpRows fp x0p x1p qs) nout := by
  have hlen : 0 < qs.length := List.length_pos.mpr hqs
  have hk : 0 < ceilDivNat qs.length b := ceilDivNat_pos _ _ hlen hb
  show (np_array_split qs (ceilDivNat qs.length b)).foldl
      (fun acc ch => ovAdd acc
        (jnpSumRows (ch.map (interp2dVec fp x0p x1p)) nout))
      (rowZeros nout)
    = jnpSumRows (qs.map (interp2dVec fp x0p x1p)) nout
  have hA := List.foldl_map (List.map (interp2dVec fp x0p x1p))
      (fun (acc : Option (List ℚ)) (ch : List (Option (List ℚ))) =>
        ovAdd acc (jnpSumRows ch nout))
      (np_array_split qs (ceilDivNat qs.length b)) (rowZeros nout)
  refine Eq.trans hA.symm ?_
  have hmap : (np_array_split qs (ceilDivNat qs.length b)).map
      (List.map (interp2dVec fp x0p x1p))
      = np_array_split (qs.map (interp2dVec fp x0p x1p))
          (ceilDivNat qs.length b) := by
    rw [np_array_split, np_array_split, List.length_map, takeChunks_map]
  rw [hmap, foldl_chunks_sum_z, np_array_split_flatten _ _ hk]

theorem call_sum_result_some (fp : List (List (List ℚ))) (x0p x1p : List ℚ)
    (qs : List (ℚ × ℚ)) (w : List ℚ) (b nout : Nat)
    (hb : 0 < b) (hqs : qs ≠ []) (hw : w.length = qs.length) :
    call_sum_result fp x0p x1p qs (some w) b nout =
      jnpDotRows w (interpRows fp x0p x1p qs) nout := by
  have hlen : 0 < qs.length := List.length_pos.mpr hqs
  have hk : 0 < ceilDivNat qs.length b := ceilDivNat_pos _ _ hlen hb
  show ((np_array_split w (ceilDivNat qs.length b)).zip
      (np_array_split qs (ceilDivNat qs.length b))).foldl
      (fun acc p => ovAdd acc
        (jnpSumRows (List.zipWith (fun c r => Option.map (vecScale c) r)
          p.1 (p.2.map (interp2dVec fp x0p x1p))) nout))
      (rowZeros nout)
    = jnpSumRows (List.zipWith (fun c r => Option.map (vecScale c) r)
        w (qs.map (interp2dVec fp x0p x1p))) nout
  have hA := List.foldl_map
      (fun (p : List ℚ × List (ℚ × ℚ)) =>
        (p.1, p.2.map (interp2dVec fp x0p x1p)))
      (fun (acc : Option (List ℚ)) (p : List ℚ × List (Option (List ℚ))) =>
        ovAdd acc (jnpSumRows (List.zipWith
          (fun c r => Option.map (vecScale c) r) p.1 p.2) nout))
      ((np_array_split w (ceilDivNat qs.length b)).zip
        (np_array_split qs (ceilDivNat qs.length b))) (rowZeros nout)
  refine Eq.trans hA.symm ?_
  have hB : ((np_array_split w (ceilDivNat qs.length b)).zip
      (np_array_split qs (ceilDivNat qs.length b))).map
      (fun (p : List ℚ × List (ℚ × ℚ)) =>
        (p.1, p.2.map (interp2dVec fp x0p x1p)))
      = (np_array_split w (ceilDivNat qs.length b)).zip
        ((np_array_split qs (ceilDivNat qs.length b)).map
          (List.map (interp2dVec fp x0p x1p))) := by
    rw [List.zip_map_right]
    exact List.map_congr_left (fun p _ => rfl) |>.symm |>.symm
  rw [hB]
  have hC : (np_array_split qs (ceilDivNat qs.length b)).map
      (List.map (interp2dVec fp x0p x1p))
      = np_array_split (qs.map (interp2dVec fp x0p x1p))
          (ceilDivNat qs.length b) := by
    rw [np_array_split, np_array_split, List.length_map, takeChunks_map]
  rw [hC]
  have hD := List.foldl_map
      (fun (p : List ℚ × List (Option (List ℚ))) =>
        List.zipWith (fun c r => Option.map (vecScale c) r) p.1 p.2)
      (fun (acc : Option (List ℚ)) (ch : List (Option (List ℚ))) =>
        ovAdd acc (jnpSumRows ch nout))
      ((np_array_split w (ceilDivNat qs.length b)).zip
        (np_array_split (qs.map (interp2dVec fp x0p x1p))
          (ceilDivNat qs.length b))) (rowZeros nout)
  refine Eq.trans hD.symm ?_
  have hl1 : (qs.map (interp2dVec fp x0p x1p)).length = w.length := by
    rw [List.length_map, hw]
  have hl2 : (List.zipWith (fun c r => Option.map (vecScale c) r)
      w (qs.map (interp2dVec fp x0p x1p))).length = w.length := by
    rw [List.length_zipWith, hl1, min_self]
  have hE : ((np_array_split w (ceilDivNat qs.length b)).zip
      (np_array_split (qs.map (interp2dVec fp x0p x1p))
        (ceilDivNat qs.length b))).map
      (fun p => List.zipWith (fun c r => Option.map (vecScale c) r) p.1 p.2)
      = np_array_split (List.zipWith (fun c r => Option.map (vecScale c) r)
          w (qs.map (interp2dVec fp x0p x1p))) (ceilDivNat qs.length b) := by
    rw [np_array_split, np_array_split, np_array_split, hl1, hl2]
    exact takeChunks_zipWith _ _ w (qs.map (interp2dVec fp x0p x1p))
  rw [hE, foldl_chunks_sum_z, np_array_split_flatten _ _ hk]

/-- C6: for every batch of query points and any two positive batch sizes,
the `sum_result=True` branch of `BatchInterpolator.__call__` returns the same
output vector regardless of `sum_batch_size`; with `sum_weight=None` that
vector is the plain sum of the per-query interpolated rows that the same
call with `sum_result=False` returns, and with a weight vector (of the same
length as the batch) it is the `sum_weight`-weighted sum (dot product) of
those rows.  Arithmetic is exact here (rationals); the float code sums the
same terms in a different association. -/
theorem call_sum_chunking_spec (fp : List (List (List ℚ))) (x0p x1p : List ℚ)
    (qs : List (ℚ × ℚ)) (sum_weight : Option (List ℚ)) (b1 b2 nout : Nat)
    (hb1 : 0 < b1) (hb2 : 0 < b2) (hqs : qs ≠ [])
    (hw : ∀ w, sum_weight = some w → w.length = qs.length) :
    call_sum_result fp x0p x1p qs sum_weight b1 nout =
      call_sum_result fp x0p x1p qs sum_weight b2 nout ∧
    (sum_weight = none →
      call_sum_result fp x0p x1p qs sum_weight b1 nout =
        jnpSumRows (interpRows fp x0p x1p qs) nout) ∧
    (∀ w, sum_weight = some w →
      call_sum_result fp x0p x1p qs sum_weight b1 nout =
        jnpDotRows w (interpRows fp x0p x1p qs) nout) := by
  cases sum_weight with
  | none =>
      refine ⟨?_, fun _ => call_sum_result_none fp x0p x1p qs b1 nout hb1 hqs, ?_⟩
      · rw [call_sum_result_none fp x0p x1p qs b1 nout hb1 hqs,
          call_sum_result_none fp x0p x1p qs b2 nout hb2 hqs]
      · intro w hcon
        exact Option.noConfusion hcon
  | some w0 =>
      have hw0 : w0.length = qs.length := hw w0 rfl
      refine ⟨?_, ?_, ?_⟩
      · rw [call_sum_result_some fp x0p x1p qs w0 b1 nout hb1 hqs hw0,
          call_sum_result_some fp x0p x1p qs w0 b2 nout hb2 hqs hw0]
      · intro hcon
        exact Option.noConfusion hcon
      · intro w hsw
        have heq : w0 = w := Option.some.inj hsw
        subst heq
        exact call_sum_result_some fp x0p x1p qs w0 b1 nout hb1 hqs hw0

theorem call_sum_chunking_spec_witness :
    (0 < 1 ∧ 0 < 2 ∧ ([((0 : ℚ), (0 : ℚ))] : List (ℚ × ℚ)) ≠ []) ∧
    call_sum_result [[[1]]] [0, 1] [0, 1] [((0 : ℚ), (0 : ℚ))] none 1 1 =
      call_sum_result [[[1]]] [0, 1] [0, 1] [((0 : ℚ), (0 : ℚ))] none 2 1 :=
  ⟨⟨by norm_num, by norm_num, by simp⟩,
   (call_sum_chunking_spec [[[1]]] [0, 1] [0, 1] [((0 : ℚ), (0 : ℚ))] none 1 2 1
      (by norm_num) (by norm_num) (by simp)
      (fun w h => Option.noConfusion h)).1⟩
